import Mathlib

/-!
Shallow embedding of `dagny_nav_launch/primitives.py` (a Python 2 module of
analytic path segments: straight lines, circular arcs, Euler spirals and
compound concatenations) together with theorems checking the module's
specification.

Modelling conventions:
* Python floats are idealised as real numbers `ℝ`; complex floats as `ℂ`.
* Python 2 `round` rounds half away from zero; it is modelled by `pyRound`.
* A Python method that can raise (an `assert`, a `ZeroDivisionError`, a
  `TypeError`) is modelled as an `Option`-valued function, `none` meaning the
  call raises.
* `scipy.special.fresnel` is an external special function; it is a parameter
  `fr : ℂ → ℂ × ℂ` (returning the pair `(S, C)` exactly as scipy does) of all
  spiral definitions, so theorems state what holds for every (or for every
  genuinely Fresnel-like) implementation.
* Each class's `get_pose` closed form is transcribed literally from the
  source, including the source's choice of operand order; constructors are
  transcribed with their `assert` guards.
* Python 2 compares `None < x` as true for every number `x`, and any
  arithmetic on `None` raises `TypeError`; `Segment.get_poses` is transcribed
  accordingly.
-/

noncomputable section

/-- A pose `(x, y, theta, omega)`: position, heading, and curvature rate.
The source represents it as a 4-tuple. -/
structure Pose where
  x : ℝ
  y : ℝ
  th : ℝ
  om : ℝ

instance : DecidableEq Pose := fun _ _ => Classical.dec _

/-- Python 2 `round` to an integer: round half away from zero. -/
def pyRound (x : ℝ) : ℤ :=
  if 0 ≤ x then ⌊x + 1 / 2⌋ else -⌊-x + 1 / 2⌋

/-- The duck-typed segment interface: the fields every segment object carries
(`_length`, `_start`, the `get_pose` method, and the cached `_end` pose).
`get_pose` is `Option`-valued because a concrete `get_pose` may raise. -/
structure Segment where
  length : ℝ
  start : Pose
  get_pose : ℝ → Option Pose
  end_pose : Pose

/-- `Linear.get_pose`: straight motion along the fixed heading. -/
def Linear.get_pose (start : Pose) (s : ℝ) : Pose :=
  ⟨start.x + s * Real.cos start.th, start.y + s * Real.sin start.th, start.th, 0⟩

/-- `Linear.__init__`: requires `round(start[3], 4) == 0`;
caches `_end = get_pose(length)`. -/
def Linear.make (start : Pose) (len : ℝ) : Option Segment :=
  if pyRound (start.om * 10 ^ 4) = 0 then
    some ⟨len, start, fun s => some (Linear.get_pose start s), Linear.get_pose start len⟩
  else none

/-- `Arc.get_pose`: constant-curvature-rate motion, transcribed literally
(including the source's `y` sign choice, which the source itself flags as
possibly incorrect). -/
def Arc.get_pose (start : Pose) (s : ℝ) : Pose :=
  ⟨ start.x + (Real.sin (start.th + s * start.om) - Real.sin start.th) / start.om,
    start.y - (Real.cos (start.th + s * start.om) - Real.cos start.th) / start.om,
    start.th + start.om * s,
    start.om ⟩

/-- `Arc.__init__`: requires `round(start[3], 4) != 0`;
caches `_end = get_pose(length)`. -/
def Arc.make (start : Pose) (len : ℝ) : Option Segment :=
  if pyRound (start.om * 10 ^ 4) = 0 then none
  else some ⟨len, start, fun s => some (Arc.get_pose start s), Arc.get_pose start len⟩

/-- `cmath.sqrt`: the principal complex square root. -/
def csqrt (z : ℂ) : ℂ := z ^ ((1 : ℂ) / 2)

/-- The heading `Spiral.get_pose` returns: `theta0 + w*t*t/2`, transcribed
literally from the source (the source omits an `omega0*t` term here). -/
def Spiral.theta (start : Pose) (w s : ℝ) : ℝ := start.th + w * s * s / 2

/-- The curvature rate `Spiral.get_pose` returns: `omega0 + w*t`. -/
def Spiral.omega (start : Pose) (w s : ℝ) : ℝ := start.om + w * s

/-- The complex displacement pair `(dx, dy)` computed inside
`Spiral.get_pose`, with `fr` standing for `scipy.special.fresnel`
(which returns `(S, C)`). -/
def Spiral.dxy (fr : ℂ → ℂ × ℂ) (start : Pose) (w s : ℝ) : ℂ × ℂ :=
  let t : ℝ := if w < 0 then -s else s
  let sc1 := fr ((start.om : ℂ) / csqrt ((Real.pi * w : ℝ) : ℂ))
  let sc2 := fr (((start.om + w * t : ℝ) : ℂ) / csqrt ((Real.pi * w : ℝ) : ℂ))
  let piw := csqrt ((Real.pi / w : ℝ) : ℂ)
  let t0 : ℝ := start.om * start.om / (2 * w) - start.th
  ( piw * ((Real.cos t0 : ℂ) * (sc2.2 - sc1.2) + (Real.sin t0 : ℂ) * (sc2.1 - sc1.1)),
    piw * ((Real.sin t0 : ℂ) * (sc1.2 - sc2.2) + (Real.cos t0 : ℂ) * (sc2.1 - sc1.1)) )

/-- `Spiral.get_pose`: asserts that `dx` and `dy` have zero imaginary part
(raising otherwise), then returns the real parts. -/
def Spiral.get_pose (fr : ℂ → ℂ × ℂ) (start : Pose) (w s : ℝ) : Option Pose :=
  let d := Spiral.dxy fr start w s
  if d.1.im = 0 ∧ d.2.im = 0 then
    some ⟨start.x + d.1.re, start.y + d.2.re, Spiral.theta start w s, Spiral.omega start w s⟩
  else none

/-- `Spiral.__init__`: requires `w != 0`; caches `_end = get_pose(length)`
(so it raises if that evaluation raises). -/
def Spiral.make (fr : ℂ → ℂ × ℂ) (start : Pose) (len w : ℝ) : Option Segment :=
  if w = 0 then none
  else (Spiral.get_pose fr start w len).map fun e =>
    ⟨len, start, fun s => Spiral.get_pose fr start w s, e⟩

/-- The scanning loop of `Compound.get_pose`: walk the children, subtracting
each consumed child's length from the query; once the query no longer exceeds
the current child's length delegate to it; if the children run out return the
compound's cached end pose. -/
def Compound.get_pose_aux (e : Pose) : List Segment → ℝ → Option Pose
  | [], _ => some e
  | c :: cs, q => if c.length < q then Compound.get_pose_aux e cs (q - c.length) else c.get_pose q

/-- `Compound.__init__`: `_start` is the fixed origin pose, `_end` is the last
child's end pose, `_length` the sum of the children's lengths.  An empty child
sequence raises (`segments[-1]` on an empty tuple). -/
def Compound.make (segs : List Segment) : Option Segment :=
  match segs with
  | [] => none
  | c :: cs =>
    some ⟨((c :: cs).map Segment.length).sum, ⟨0, 0, 0, 0⟩,
          Compound.get_pose_aux (((c :: cs).getLast (List.cons_ne_nil c cs)).end_pose) (c :: cs),
          ((c :: cs).getLast (List.cons_ne_nil c cs)).end_pose⟩

/-- The running base offset of `Compound.get_pose`'s scan after `i` children:
the sum of the first `i` children's lengths. -/
def Compound.length_before (segs : List Segment) (i : ℕ) : ℝ :=
  ((segs.take i).map Segment.length).sum

/-- The mutable score-memoization state: `_reference` (initially `None`, and
in fact never assigned by the source) and the last `_score`. -/
structure ScoreState where
  reference : Option Pose
  score : ℝ

/-- The state `Segment.__init__` leaves behind: `_reference = None`
(`_score` unset; it is modelled as `0`, and is never read before written). -/
def ScoreState.init : ScoreState := ⟨none, 0⟩

/-- The squared 4-dimensional distance `Segment.get_score` computes. -/
def Segment.score_value (seg : Segment) (ref : Pose) : ℝ :=
  (ref.x - seg.end_pose.x) * (ref.x - seg.end_pose.x) +
  (ref.y - seg.end_pose.y) * (ref.y - seg.end_pose.y) +
  (ref.th - seg.end_pose.th) * (ref.th - seg.end_pose.th) +
  (ref.om - seg.end_pose.om) * (ref.om - seg.end_pose.om)

/-- `Segment.get_score`, as a state transformer.  The returned `Bool` is
instrumentation: `true` when the recomputation branch ran, `false` when the
cached score was returned.  Note the source updates `_score` but never
`_reference` in the recomputation branch. -/
def Segment.get_score (seg : Segment) (st : ScoreState) (ref : Pose) :
    ℝ × ScoreState × Bool :=
  match st.reference with
  | some r =>
    if ref = r then (st.score, st, false)
    else (seg.score_value ref, ⟨st.reference, seg.score_value ref⟩, true)
  | none => (seg.score_value ref, ⟨none, seg.score_value ref⟩, true)

/-- `Segment.get_poses(n, resolution)`, transcribed with Python 2 semantics:
`assert(n is not None or resolution is not None)`; a derived
`n = length / resolution` (raising on `resolution == 0`); early empty return
on `n == 0`; the re-check `resolution < length / n` — in which `None`
compares below every number and arithmetic on `None` raises — with its inner
`assert(length / resolution > n)`; then `n = int(round(n + 0.5))` samples at
`i * resolution`.  `none` models a raised exception. -/
def Segment.get_poses (seg : Segment) (n : Option ℤ) (resolution : Option ℝ) :
    Option (List Pose) :=
  match n, resolution with
  | none, none => none
  | some k, none =>
    if (k : ℝ) = 0 then some [] else none
  | nopt, some res =>
    match (match nopt with
           | none => if res = 0 then none else some (seg.length / res)
           | some k => some ((k : ℝ))) with
    | none => none
    | some n0 =>
      if n0 = 0 then some []
      else
        if res < seg.length / n0 then
          if res = 0 then none
          else if n0 < seg.length / res then
            (List.range (pyRound (seg.length / res + 1 / 2)).toNat).mapM
              (fun i : ℕ => seg.get_pose ((i : ℝ) * res))
          else none
        else
          (List.range (pyRound (n0 + 1 / 2)).toNat).mapM
            (fun i : ℕ => seg.get_pose ((i : ℝ) * res))

/-- The two facts about `scipy.special.fresnel` (returning `(S, C)`) the
spiral analysis rests on: it is real-valued on real arguments, and it obeys
the power-series rotation identities `S(-i*u) = i*S(u)`, `C(-i*u) = -i*C(u)`
(from `S(z) = sum c_k z^(4k+3)` and `C(z) = sum d_k z^(4k+1)`). -/
def FresnelLike (fr : ℂ → ℂ × ℂ) : Prop :=
  (∀ u : ℝ, (fr u).1.im = 0 ∧ (fr u).2.im = 0) ∧
  (∀ u : ℝ, fr (-Complex.I * (u : ℂ)) = (Complex.I * (fr u).1, -Complex.I * (fr u).2))

/-- A degenerate stand-in for `scipy.special.fresnel` used to instantiate
universally quantified theorems at a concrete input. -/
def frZero : ℂ → ℂ × ℂ := fun _ => (0, 0)

/-- The segment object `Linear(p, len)` constructs (when its guard passes). -/
def lineSegAt (p : Pose) (len : ℝ) : Segment :=
  ⟨len, p, fun s => some (Linear.get_pose p s), Linear.get_pose p len⟩

/-- The segment object `Compound(Linear((5,5,0,0), 3))` constructs. -/
def compoundSeg55 : Segment :=
  ⟨3, ⟨0, 0, 0, 0⟩,
   Compound.get_pose_aux (Linear.get_pose ⟨5, 5, 0, 0⟩ 3) [lineSegAt ⟨5, 5, 0, 0⟩ 3],
   Linear.get_pose ⟨5, 5, 0, 0⟩ 3⟩

/-- The segment object `Arc(p, len)` constructs (when its guard passes). -/
def arcSegAt (p : Pose) (len : ℝ) : Segment :=
  ⟨len, p, fun s => some (Arc.get_pose p s), Arc.get_pose p len⟩

/-- The segment object `Spiral(p, len, w)` constructs when `fresnel` is
replaced by the degenerate `frZero` (so the displacement is zero). -/
def spiralSegZeroFr (p : Pose) (len w : ℝ) : Segment :=
  ⟨len, p, fun s => Spiral.get_pose frZero p w s,
   ⟨p.x, p.y, Spiral.theta p w len, Spiral.omega p w len⟩⟩

/-- The segment object `Compound(Linear((0,0,0,0), 3), Linear(end-of-first, 2))`
constructs: the spec's two-straight-children example. -/
def compoundLin32 : Segment :=
  ⟨(([lineSegAt ⟨0, 0, 0, 0⟩ 3,
      lineSegAt (Linear.get_pose ⟨0, 0, 0, 0⟩ 3) 2]).map Segment.length).sum,
   ⟨0, 0, 0, 0⟩,
   Compound.get_pose_aux (lineSegAt (Linear.get_pose ⟨0, 0, 0, 0⟩ 3) 2).end_pose
     [lineSegAt ⟨0, 0, 0, 0⟩ 3, lineSegAt (Linear.get_pose ⟨0, 0, 0, 0⟩ 3) 2],
   (lineSegAt (Linear.get_pose ⟨0, 0, 0, 0⟩ 3) 2).end_pose⟩

theorem pyRound_eq_zero_iff (x : ℝ) : pyRound x = 0 ↔ |x| < 1 / 2 := by
  unfold pyRound
  rcases le_or_lt 0 x with h | h
  · rw [if_pos h, Int.floor_eq_zero_iff, Set.mem_Ico, abs_of_nonneg h]
    constructor
    · rintro ⟨-, h1⟩; linarith
    · intro h1; exact ⟨by linarith, by linarith⟩
  · rw [if_neg (not_le.mpr h), neg_eq_zero, Int.floor_eq_zero_iff, Set.mem_Ico, abs_of_neg h]
    constructor
    · rintro ⟨-, h1⟩; linarith
    · intro h1; exact ⟨by linarith, by linarith⟩

theorem round4_eq_zero_iff (x : ℝ) : pyRound (x * 10 ^ 4) = 0 ↔ |x| < 1 / 20000 := by
  rw [pyRound_eq_zero_iff, abs_mul, abs_of_nonneg (show (0 : ℝ) ≤ 10 ^ 4 by norm_num)]
  constructor <;> intro h <;> nlinarith [abs_nonneg x]

theorem linear_make_eq {p : Pose} (len : ℝ) (h : |p.om| < 1 / 20000) :
    Linear.make p len = some (lineSegAt p len) := by
  unfold Linear.make lineSegAt
  rw [if_pos ((round4_eq_zero_iff _).mpr h)]

theorem linear_make_isSome_iff (p : Pose) (len : ℝ) :
    (Linear.make p len).isSome ↔ |p.om| < 1 / 20000 := by
  unfold Linear.make
  rcases lt_or_le |p.om| (1 / 20000) with h | h
  · rw [if_pos ((round4_eq_zero_iff _).mpr h)]; simpa using h
  · rw [if_neg (by rw [round4_eq_zero_iff]; exact not_lt.mpr h)]; simpa using h

theorem arc_make_isSome_iff (p : Pose) (len : ℝ) :
    (Arc.make p len).isSome ↔ 1 / 20000 ≤ |p.om| := by
  unfold Arc.make
  rcases lt_or_le |p.om| (1 / 20000) with h | h
  · rw [if_pos ((round4_eq_zero_iff _).mpr h)]
    simpa using not_le.mpr h
  · rw [if_neg (by rw [round4_eq_zero_iff]; exact not_lt.mpr h)]
    simpa using h

theorem csqrt_ofReal_nonneg {a : ℝ} (h : 0 ≤ a) : csqrt (a : ℂ) = (Real.sqrt a : ℂ) := by
  unfold csqrt
  have h2 : ((1 : ℂ) / 2) = (((1 / 2 : ℝ)) : ℂ) := by norm_num
  rw [h2, ← Complex.ofReal_cpow h, Real.sqrt_eq_rpow]

theorem csqrt_ofReal_neg {a : ℝ} (h : a < 0) :
    csqrt (a : ℂ) = Complex.I * (Real.sqrt (-a) : ℂ) := by
  unfold csqrt
  rw [Complex.ofReal_cpow_of_nonpos h.le]
  have h1 : ((-(a : ℂ)) : ℂ) = ((-a : ℝ) : ℂ) := by push_cast; ring
  have h2 : ((1 : ℂ) / 2) = (((1 / 2 : ℝ)) : ℂ) := by norm_num
  have h3 : (Real.pi : ℂ) * Complex.I * ((1 : ℂ) / 2) = ((Real.pi / 2 : ℝ) : ℂ) * Complex.I := by
    push_cast; ring
  rw [h1, h3, h2, ← Complex.ofReal_cpow (by linarith : (0 : ℝ) ≤ -a), Complex.exp_mul_I,
    ← Complex.ofReal_cos, ← Complex.ofReal_sin, Real.cos_pi_div_two, Real.sin_pi_div_two,
    Real.sqrt_eq_rpow]
  push_cast
  ring

theorem ofReal_div_I_mul (x c : ℝ) (hc : c ≠ 0) :
    (x : ℂ) / (Complex.I * (c : ℂ)) = -Complex.I * ((x / c : ℝ) : ℂ) := by
  have hd : Complex.I * (c : ℂ) ≠ 0 :=
    mul_ne_zero Complex.I_ne_zero (Complex.ofReal_ne_zero.mpr hc)
  rw [div_eq_iff hd]
  have : -Complex.I * ((x / c : ℝ) : ℂ) * (Complex.I * (c : ℂ)) =
      -(Complex.I * Complex.I) * (((x / c : ℝ) : ℂ) * (c : ℂ)) := by ring
  rw [this, Complex.I_mul_I, ← Complex.ofReal_mul, div_mul_cancel₀ x hc]
  ring

theorem eq_ofReal_re {z : ℂ} (h : z.im = 0) : z = ((z.re : ℝ) : ℂ) := by
  apply Complex.ext <;> simp [h]

theorem Spiral.dxy_real (fr : ℂ → ℂ × ℂ) (hfr : FresnelLike fr) (start : Pose) {w : ℝ}
    (hw : w ≠ 0) (s : ℝ) :
    (Spiral.dxy fr start w s).1.im = 0 ∧ (Spiral.dxy fr start w s).2.im = 0 := by
  obtain ⟨hreal, hrot⟩ := hfr
  rcases hw.lt_or_lt with hneg | hpos
  · have hπw : Real.pi * w < 0 := mul_neg_of_pos_of_neg Real.pi_pos hneg
    have hπdw : Real.pi / w < 0 := div_neg_of_pos_of_neg Real.pi_pos hneg
    have hcpos : 0 < Real.sqrt (-(Real.pi * w)) := Real.sqrt_pos.mpr (by linarith)
    have harg1 : (start.om : ℂ) / csqrt ((Real.pi * w : ℝ) : ℂ) =
        -Complex.I * ((start.om / Real.sqrt (-(Real.pi * w)) : ℝ) : ℂ) := by
      rw [csqrt_ofReal_neg hπw]; exact ofReal_div_I_mul _ _ hcpos.ne'
    have harg2 : ((start.om + w * -s : ℝ) : ℂ) / csqrt ((Real.pi * w : ℝ) : ℂ) =
        -Complex.I * (((start.om + w * -s) / Real.sqrt (-(Real.pi * w)) : ℝ) : ℂ) := by
      rw [csqrt_ofReal_neg hπw]; exact ofReal_div_I_mul _ _ hcpos.ne'
    obtain ⟨h1, h2⟩ := hreal (start.om / Real.sqrt (-(Real.pi * w)))
    obtain ⟨h3, h4⟩ := hreal ((start.om + w * -s) / Real.sqrt (-(Real.pi * w)))
    constructor <;>
    · simp only [Spiral.dxy]
      rw [if_pos hneg, harg1, harg2, hrot, hrot, csqrt_ofReal_neg hπdw]
      dsimp only
      simp only [Complex.mul_im, Complex.mul_re, Complex.add_im, Complex.add_re,
        Complex.sub_im, Complex.sub_re, Complex.neg_im, Complex.neg_re, Complex.I_re,
        Complex.I_im, Complex.ofReal_im, Complex.ofReal_re, h1, h2, h3, h4]
      ring
  · have hπw : 0 ≤ Real.pi * w := by positivity
    have hπdw : 0 ≤ Real.pi / w := by positivity
    have harg1 : (start.om : ℂ) / csqrt ((Real.pi * w : ℝ) : ℂ) =
        ((start.om / Real.sqrt (Real.pi * w) : ℝ) : ℂ) := by
      rw [csqrt_ofReal_nonneg hπw, ← Complex.ofReal_div]
    have harg2 : ((start.om + w * s : ℝ) : ℂ) / csqrt ((Real.pi * w : ℝ) : ℂ) =
        (((start.om + w * s) / Real.sqrt (Real.pi * w) : ℝ) : ℂ) := by
      rw [csqrt_ofReal_nonneg hπw, ← Complex.ofReal_div]
    obtain ⟨h1, h2⟩ := hreal (start.om / Real.sqrt (Real.pi * w))
    obtain ⟨h3, h4⟩ := hreal ((start.om + w * s) / Real.sqrt (Real.pi * w))
    constructor <;>
    · simp only [Spiral.dxy]
      rw [if_neg (not_lt.mpr hpos.le), harg1, harg2, csqrt_ofReal_nonneg hπdw]
      simp only [Complex.mul_im, Complex.mul_re, Complex.add_im, Complex.add_re,
        Complex.sub_im, Complex.sub_re, Complex.neg_im, Complex.neg_re,
        Complex.ofReal_im, Complex.ofReal_re, h1, h2, h3, h4]
      ring

theorem Spiral.get_pose_isSome (fr : ℂ → ℂ × ℂ) (hfr : FresnelLike fr) (start : Pose)
    {w : ℝ} (hw : w ≠ 0) (s : ℝ) : (Spiral.get_pose fr start w s).isSome := by
  obtain ⟨h1, h2⟩ := Spiral.dxy_real fr hfr start hw s
  simp [Spiral.get_pose, h1, h2]

theorem spiral_get_pose_zero (fr : ℂ → ℂ × ℂ) (start : Pose) (w : ℝ) :
    Spiral.get_pose fr start w 0 = some start := by
  obtain ⟨sx, sy, sth, som⟩ := start
  have hd : Spiral.dxy fr ⟨sx, sy, sth, som⟩ w 0 = (0, 0) := by
    simp [Spiral.dxy]
  simp [Spiral.get_pose, hd, Spiral.theta, Spiral.omega]

theorem arc_get_pose_zero (start : Pose) : Arc.get_pose start 0 = start := by
  obtain ⟨sx, sy, sth, som⟩ := start
  simp [Arc.get_pose]

theorem linear_get_pose_zero (start : Pose) :
    Linear.get_pose start 0 = ⟨start.x, start.y, start.th, 0⟩ := by
  simp [Linear.get_pose]

theorem spiral_make_fields {fr : ℂ → ℂ × ℂ} {start : Pose} {len w : ℝ} {s : Segment}
    (h : Spiral.make fr start len w = some s) :
    s.length = len ∧ s.start = start ∧
      s.get_pose = (fun q => Spiral.get_pose fr start w q) ∧
      Spiral.get_pose fr start w len = some s.end_pose := by
  unfold Spiral.make at h
  by_cases hw : w = 0
  · rw [if_pos hw] at h; cases h
  · rw [if_neg hw, Option.map_eq_some'] at h
    obtain ⟨e, he, rfl⟩ := h
    exact ⟨rfl, rfl, rfl, he⟩

theorem compound_make_fields {segs : List Segment} {c : Segment}
    (h : Compound.make segs = some c) :
    ∃ hne : segs ≠ [],
      c.length = (segs.map Segment.length).sum ∧ c.start = ⟨0, 0, 0, 0⟩ ∧
      c.end_pose = (segs.getLast hne).end_pose ∧
      c.get_pose = Compound.get_pose_aux ((segs.getLast hne).end_pose) segs := by
  cases segs with
  | nil => simp [Compound.make] at h
  | cons a as =>
    unfold Compound.make at h
    simp only [Option.some.injEq] at h
    subst h
    exact ⟨List.cons_ne_nil a as, rfl, rfl, rfl, rfl⟩

theorem Compound.get_pose_aux_le {e : Pose} {c : Segment} (cs : List Segment) {q : ℝ}
    (h : q ≤ c.length) : Compound.get_pose_aux e (c :: cs) q = c.get_pose q := by
  unfold Compound.get_pose_aux; rw [if_neg (not_lt.mpr h)]

theorem Compound.get_pose_aux_gt {e : Pose} {c : Segment} (cs : List Segment) {q : ℝ}
    (h : c.length < q) :
    Compound.get_pose_aux e (c :: cs) q = Compound.get_pose_aux e cs (q - c.length) := by
  unfold Compound.get_pose_aux; rw [if_pos h]; cases cs <;> rfl

theorem Compound.length_before_zero (segs : List Segment) :
    Compound.length_before segs 0 = 0 := by
  simp [Compound.length_before]

theorem Compound.length_before_succ (c : Segment) (cs : List Segment) (i : ℕ) :
    Compound.length_before (c :: cs) (i + 1) = c.length + Compound.length_before cs i := by
  simp [Compound.length_before]

theorem Compound.length_before_nonneg {segs : List Segment}
    (h : ∀ x ∈ segs, 0 ≤ x.length) (i : ℕ) : 0 ≤ Compound.length_before segs i := by
  apply List.sum_nonneg
  intro a ha
  simp only [List.mem_map] at ha
  obtain ⟨x, hx, rfl⟩ := ha
  exact h x (List.mem_of_mem_take hx)

theorem Compound.get_pose_aux_delegate (e : Pose) (segs : List Segment) :
    ∀ (i : ℕ) (hi : i < segs.length) (q : ℝ),
      (∀ x ∈ segs, 0 ≤ x.length) →
      Compound.length_before segs i < q → q ≤ Compound.length_before segs (i + 1) →
      Compound.get_pose_aux e segs q =
        (segs.get ⟨i, hi⟩).get_pose (q - Compound.length_before segs i) := by
  induction segs with
  | nil => intro i hi; simp at hi
  | cons c cs ih =>
    intro i hi q hnn hlo hhi
    match i with
    | 0 =>
      rw [Compound.length_before_zero] at hlo ⊢
      have hhi' : q ≤ c.length := by
        rw [zero_add, Compound.length_before_succ, Compound.length_before_zero,
          add_zero] at hhi
        exact hhi
      rw [Compound.get_pose_aux_le cs hhi', sub_zero]
      rfl
    | j + 1 =>
      have hnn' : ∀ x ∈ cs, 0 ≤ x.length := fun x hx => hnn x (List.mem_cons_of_mem _ hx)
      rw [Compound.length_before_succ] at hlo hhi ⊢
      have hlb : 0 ≤ Compound.length_before cs j := Compound.length_before_nonneg hnn' j
      have hcq : c.length < q := by linarith
      rw [Compound.get_pose_aux_gt cs hcq]
      have hj : j < cs.length := by simpa using hi
      rw [ih j hj (q - c.length) hnn' (by linarith) (by linarith)]
      rw [List.get_cons_succ, sub_sub]

theorem Compound.get_pose_aux_beyond (e : Pose) (segs : List Segment) :
    ∀ q : ℝ, (∀ x ∈ segs, 0 ≤ x.length) → (segs.map Segment.length).sum < q →
      Compound.get_pose_aux e segs q = some e := by
  induction segs with
  | nil => intro q _ _; rfl
  | cons c cs ih =>
    intro q hnn hq
    have hnn' : ∀ x ∈ cs, 0 ≤ x.length := fun x hx => hnn x (List.mem_cons_of_mem _ hx)
    have hcs : 0 ≤ (cs.map Segment.length).sum := by
      apply List.sum_nonneg
      intro a ha
      simp only [List.mem_map] at ha
      obtain ⟨x, hx, rfl⟩ := ha
      exact hnn' x hx
    simp only [List.map_cons, List.sum_cons] at hq
    rw [Compound.get_pose_aux_gt cs (by linarith)]
    exact ih (q - c.length) hnn' (by linarith)

theorem Compound.get_pose_aux_at_total (segs : List Segment) :
    ∀ e : Pose, (∀ x ∈ segs, 0 < x.length) → ∀ hne : segs ≠ [],
      (segs.getLast hne).get_pose (segs.getLast hne).length =
        some (segs.getLast hne).end_pose →
      Compound.get_pose_aux e segs ((segs.map Segment.length).sum) =
        some (segs.getLast hne).end_pose := by
  induction segs with
  | nil => intro e _ hne; exact absurd rfl hne
  | cons c cs ih =>
    intro e hpos hne hwf
    cases cs with
    | nil =>
      have hsum : (([c] : List Segment).map Segment.length).sum = c.length := by simp
      rw [hsum, Compound.get_pose_aux_le [] le_rfl]
      exact hwf
    | cons d ds =>
      have hpos' : ∀ x ∈ d :: ds, 0 < x.length :=
        fun x hx => hpos x (List.mem_cons_of_mem _ hx)
      have htail : 0 < ((d :: ds).map Segment.length).sum := by
        apply List.sum_pos
        · intro a ha
          simp only [List.mem_map] at ha
          obtain ⟨x, hx, rfl⟩ := ha
          exact hpos' x hx
        · simp
      simp only [List.map_cons, List.sum_cons] at htail ⊢
      rw [Compound.get_pose_aux_gt (d :: ds) (by linarith)]
      have harg : c.length + (d.length + ((ds.map Segment.length).sum)) - c.length =
          d.length + (ds.map Segment.length).sum := by ring
      rw [harg]
      have hlast : (c :: d :: ds).getLast hne = (d :: ds).getLast (List.cons_ne_nil d ds) :=
        List.getLast_cons (List.cons_ne_nil d ds)
      rw [hlast] at hwf ⊢
      have := ih e hpos' (List.cons_ne_nil d ds) hwf
      simpa using this

theorem arc_make_eq {p : Pose} (len : ℝ) (h : 1 / 20000 ≤ |p.om|) :
    Arc.make p len = some (arcSegAt p len) := by
  unfold Arc.make arcSegAt
  rw [if_neg (by rw [round4_eq_zero_iff]; exact not_lt.mpr h)]

theorem linear_make_inv {p : Pose} {len : ℝ} {s : Segment}
    (h : Linear.make p len = some s) : s = lineSegAt p len := by
  unfold Linear.make at h
  split at h
  · exact (Option.some.inj h).symm
  · cases h

theorem arc_make_inv {p : Pose} {len : ℝ} {s : Segment}
    (h : Arc.make p len = some s) : s = arcSegAt p len := by
  unfold Arc.make at h
  split at h
  · cases h
  · exact (Option.some.inj h).symm

theorem Spiral.dxy_frZero (start : Pose) (w s : ℝ) :
    Spiral.dxy frZero start w s = (0, 0) := by
  simp [Spiral.dxy, frZero]

theorem Spiral.get_pose_frZero (start : Pose) (w s : ℝ) :
    Spiral.get_pose frZero start w s =
      some ⟨start.x, start.y, Spiral.theta start w s, Spiral.omega start w s⟩ := by
  simp [Spiral.get_pose, Spiral.dxy_frZero]

theorem Spiral.make_frZero (start : Pose) (len : ℝ) {w : ℝ} (hw : w ≠ 0) :
    Spiral.make frZero start len w = some (spiralSegZeroFr start len w) := by
  unfold Spiral.make spiralSegZeroFr
  rw [if_neg hw, Spiral.get_pose_frZero]
  rfl

theorem compound55_make :
    Compound.make [lineSegAt ⟨5, 5, 0, 0⟩ 3] = some compoundSeg55 := by
  simp only [Compound.make, Option.some.injEq]
  unfold compoundSeg55 lineSegAt
  simp [Segment.mk.injEq]

theorem compoundLin32_make :
    Compound.make [lineSegAt ⟨0, 0, 0, 0⟩ 3, lineSegAt (Linear.get_pose ⟨0, 0, 0, 0⟩ 3) 2] =
      some compoundLin32 := rfl

/-- C5: `get_score` does return the squared Euclidean distance in
`(x, y, theta, omega)` space, but the claimed memoization never happens: the
source never assigns `_reference`, so starting from the constructor's state a
call leaves `reference = none` and a second call with the very same reference
value runs the recomputation branch again (instrumentation flag `true`)
instead of returning the cached score without recomputing. -/
theorem get_score_always_recomputes (seg : Segment) (ref : Pose) :
    seg.get_score ScoreState.init ref =
      (seg.score_value ref, ⟨none, seg.score_value ref⟩, true) ∧
    seg.get_score ⟨none, seg.score_value ref⟩ ref =
      (seg.score_value ref, ⟨none, seg.score_value ref⟩, true) ∧
    seg.score_value ref =
      (ref.x - seg.end_pose.x) ^ 2 + (ref.y - seg.end_pose.y) ^ 2 +
      (ref.th - seg.end_pose.th) ^ 2 + (ref.om - seg.end_pose.om) ^ 2 := by
  refine ⟨rfl, rfl, ?_⟩
  unfold Segment.score_value
  ring

/-- C1: whenever `Spiral.get_pose` returns a pose, its curvature rate is
`omega0 + w*s` as claimed, but its heading is `theta0 + w*s^2/2` — the source
omits the `omega0*s` term — so at start `(0,0,0,1)`, `w = 1`, `s = 1` the code
returns heading `1/2` where the claimed formula gives `3/2`. -/
theorem spiral_heading_drops_omega_term :
    (∀ (fr : ℂ → ℂ × ℂ) (start : Pose) (w s : ℝ) (p : Pose),
        Spiral.get_pose fr start w s = some p →
        p.th = start.th + w * s * s / 2 ∧ p.om = start.om + w * s) ∧
    Spiral.theta ⟨0, 0, 0, 1⟩ 1 1 = 1 / 2 ∧
    ((1 : ℝ) / 2 ≠ 0 + 1 * 1 + 1 * 1 ^ 2 / 2) := by
  refine ⟨?_, ?_, by norm_num⟩
  · intro fr start w s p hp
    simp only [Spiral.get_pose] at hp
    split at hp
    · cases hp
      exact ⟨rfl, rfl⟩
    · cases hp
  · unfold Spiral.theta
    norm_num

/-- Witness for C1's theorem at the concrete failing input: with the
degenerate Fresnel stand-in, `Spiral((0,0,0,1), -, 1).get_pose(1)` returns a
pose, and the theorem yields its heading and curvature-rate values. -/
theorem spiral_heading_drops_omega_term_witness :
    (⟨0, 0, 1 / 2, 2⟩ : Pose).th = (0 : ℝ) + 1 * 1 * 1 / 2 ∧
    (⟨0, 0, 1 / 2, 2⟩ : Pose).om = (1 : ℝ) + 1 * 1 := by
  have h0 : Spiral.get_pose frZero ⟨0, 0, 0, 1⟩ 1 1 = some ⟨0, 0, 1 / 2, 2⟩ := by
    rw [Spiral.get_pose_frZero]
    simp [Spiral.theta, Spiral.omega]
    norm_num
  exact spiral_heading_drops_omega_term.1 frZero ⟨0, 0, 0, 1⟩ 1 1 ⟨0, 0, 1 / 2, 2⟩ h0

/-- C9: `Spiral.get_pose` fails exactly when the computed complex displacement
has a nonzero residual imaginary component (the source's tolerance is exactly
zero), and whenever it succeeds the imaginary parts are zero and the returned
position is the start position plus the real parts — the imaginary component
is never silently truncated away. -/
theorem spiral_imag_residual_fails :
    ∀ (fr : ℂ → ℂ × ℂ) (start : Pose) (w s : ℝ),
      (Spiral.get_pose fr start w s = none ↔
        ¬((Spiral.dxy fr start w s).1.im = 0 ∧ (Spiral.dxy fr start w s).2.im = 0)) ∧
      (∀ p : Pose, Spiral.get_pose fr start w s = some p →
        (Spiral.dxy fr start w s).1.im = 0 ∧ (Spiral.dxy fr start w s).2.im = 0 ∧
        p.x = start.x + (Spiral.dxy fr start w s).1.re ∧
        p.y = start.y + (Spiral.dxy fr start w s).2.re) := by
  intro fr start w s
  constructor
  · simp only [Spiral.get_pose]
    split
    · next h => simp [h]
    · next h => simp [h]
  · intro p hp
    simp only [Spiral.get_pose] at hp
    split at hp
    · next h =>
      cases hp
      exact ⟨h.1, h.2, rfl, rfl⟩
    · cases hp

/-- Witness for C9's theorem at a concrete input: with the degenerate Fresnel
stand-in the displacement is `(0, 0)`, the call succeeds, and the theorem
yields the zero imaginary parts and the real-part position. -/
theorem spiral_imag_residual_fails_witness :
    (Spiral.dxy frZero ⟨1, 2, 3, 4⟩ 1 1).1.im = 0 ∧
    (Spiral.dxy frZero ⟨1, 2, 3, 4⟩ 1 1).2.im = 0 ∧
    (⟨1, 2, 3 + 1 * 1 * 1 / 2, 4 + 1 * 1⟩ : Pose).x =
      (1 : ℝ) + (Spiral.dxy frZero ⟨1, 2, 3, 4⟩ 1 1).1.re ∧
    (⟨1, 2, 3 + 1 * 1 * 1 / 2, 4 + 1 * 1⟩ : Pose).y =
      (2 : ℝ) + (Spiral.dxy frZero ⟨1, 2, 3, 4⟩ 1 1).2.re :=
  (spiral_imag_residual_fails frZero ⟨1, 2, 3, 4⟩ 1 1).2
    ⟨1, 2, 3 + 1 * 1 * 1 / 2, 4 + 1 * 1⟩ (Spiral.get_pose_frZero ⟨1, 2, 3, 4⟩ 1 1)

/-- C6: `Arc.get_pose` computes exactly the claimed closed form, a full
circle `Arc((0,0,0,0.5), 2*pi/0.5)` ends exactly at `(0, 0, 2*pi, 0.5)` (the
start position with heading advanced by `2*pi`), and a constructed arc's
cached end pose is `Arc.get_pose` at the total length. -/
theorem arc_formula_and_full_circle :
    (∀ (start : Pose) (s : ℝ),
        Arc.get_pose start s =
          ⟨start.x + (Real.sin (start.th + start.om * s) - Real.sin start.th) / start.om,
           start.y - (Real.cos (start.th + start.om * s) - Real.cos start.th) / start.om,
           start.th + start.om * s, start.om⟩) ∧
    Arc.get_pose ⟨0, 0, 0, 1 / 2⟩ (2 * Real.pi / (1 / 2)) = ⟨0, 0, 2 * Real.pi, 1 / 2⟩ ∧
    (∀ (start : Pose) (len : ℝ) (s : Segment),
        Arc.make start len = some s → s.end_pose = Arc.get_pose start len) := by
  refine ⟨?_, ?_, ?_⟩
  · intro start s
    simp [Arc.get_pose, mul_comm]
  · have h1 : (2 * Real.pi / (1 / 2)) * (1 / 2 : ℝ) = 2 * Real.pi := by ring
    have h2 : (1 / 2 : ℝ) * (2 * Real.pi / (1 / 2)) = 2 * Real.pi := by ring
    simp only [Arc.get_pose, h1, h2, zero_add, Real.sin_two_pi, Real.cos_two_pi,
      Real.sin_zero, Real.cos_zero]
    norm_num
  · intro start len s h
    rw [arc_make_inv h]
    rfl

/-- Witness for C6's theorem: applying it to the concretely constructed full
circle arc. -/
theorem arc_formula_and_full_circle_witness :
    (arcSegAt ⟨0, 0, 0, 1 / 2⟩ (2 * Real.pi / (1 / 2))).end_pose =
      Arc.get_pose ⟨0, 0, 0, 1 / 2⟩ (2 * Real.pi / (1 / 2)) :=
  arc_formula_and_full_circle.2.2 ⟨0, 0, 0, 1 / 2⟩ (2 * Real.pi / (1 / 2))
    (arcSegAt ⟨0, 0, 0, 1 / 2⟩ (2 * Real.pi / (1 / 2)))
    (arc_make_eq (2 * Real.pi / (1 / 2))
      (by rw [show |(1 : ℝ) / 2| = 1 / 2 from abs_of_nonneg (by norm_num)]; norm_num))

/-- C2 (amended): every constructed Linear/Arc/Spiral segment satisfies
`get_pose(length) = end` exactly (the cached end is the same evaluation
function at the total length); `get_pose(0)` equals the start pose exactly
for Arc and Spiral, and for Linear equals `(x0, y0, theta0, 0)` — the start
pose exactly when the start curvature rate is exactly `0`; a compound with
positive-length children whose last child satisfies the end invariant also
satisfies `get_pose(length) = end`; but a compound's `get_pose(0)` is its
first child's pose at `0`, not the compound's fixed origin start field. -/
theorem endpoints_amended :
    (∀ (start : Pose) (len : ℝ) (s : Segment), Linear.make start len = some s →
        s.get_pose s.length = some s.end_pose ∧
        s.get_pose 0 = some ⟨start.x, start.y, start.th, 0⟩ ∧
        (start.om = 0 → s.get_pose 0 = some start)) ∧
    (∀ (start : Pose) (len : ℝ) (s : Segment), Arc.make start len = some s →
        s.get_pose s.length = some s.end_pose ∧ s.get_pose 0 = some start) ∧
    (∀ (fr : ℂ → ℂ × ℂ) (start : Pose) (len w : ℝ) (s : Segment),
        Spiral.make fr start len w = some s →
        s.get_pose s.length = some s.end_pose ∧ s.get_pose 0 = some start) ∧
    (∀ (segs : List Segment) (c : Segment), Compound.make segs = some c →
        (∀ x ∈ segs, 0 < x.length) →
        (∀ hne : segs ≠ [], (segs.getLast hne).get_pose (segs.getLast hne).length =
          some (segs.getLast hne).end_pose) →
        c.get_pose c.length = some c.end_pose) ∧
    (∀ (x : Segment) (xs : List Segment) (c : Segment), Compound.make (x :: xs) = some c →
        0 ≤ x.length → c.get_pose 0 = x.get_pose 0) := by
  refine ⟨?_, ?_, ?_, ?_, ?_⟩
  · intro start len s h
    obtain rfl := linear_make_inv h
    refine ⟨rfl, ?_, ?_⟩
    · show some (Linear.get_pose start 0) = _
      rw [linear_get_pose_zero]
    · intro hom
      show some (Linear.get_pose start 0) = some start
      rw [linear_get_pose_zero]
      obtain ⟨sx, sy, sth, som⟩ := start
      simp only at hom
      simp [hom]
  · intro start len s h
    obtain rfl := arc_make_inv h
    refine ⟨rfl, ?_⟩
    show some (Arc.get_pose start 0) = some start
    rw [arc_get_pose_zero]
  · intro fr start len w s h
    obtain ⟨hlen, -, hgp, hend⟩ := spiral_make_fields h
    rw [hgp, hlen]
    exact ⟨hend, spiral_get_pose_zero fr start w⟩
  · intro segs c h hpos hwf
    obtain ⟨hne, hlen, -, hend, hgp⟩ := compound_make_fields h
    rw [hgp, hlen, hend]
    exact Compound.get_pose_aux_at_total segs _ hpos hne (hwf hne)
  · intro x xs c h hx
    obtain ⟨hne, -, -, -, hgp⟩ := compound_make_fields h
    rw [hgp, Compound.get_pose_aux_le xs hx]

/-- C2 counterexample: `Compound(Linear((5,5,0,0), 3))` has start field
`(0,0,0,0)` but `get_pose(0) = (5,5,0,0)`, whose `x` coordinate alone is `5`
away from the start's — far beyond the claimed `1e-6` tolerance, so
`get_pose(0) == start` fails for compound segments. -/
theorem compound_pose_zero_far_from_start :
    Linear.make ⟨5, 5, 0, 0⟩ 3 = some (lineSegAt ⟨5, 5, 0, 0⟩ 3) ∧
    Compound.make [lineSegAt ⟨5, 5, 0, 0⟩ 3] = some compoundSeg55 ∧
    compoundSeg55.start = ⟨0, 0, 0, 0⟩ ∧
    compoundSeg55.get_pose 0 = some ⟨5, 5, 0, 0⟩ ∧
    (1 / 1000000 : ℝ) < |(5 : ℝ) - 0| := by
  refine ⟨linear_make_eq 3 (by norm_num), compound55_make, rfl, ?_, by norm_num⟩
  show Compound.get_pose_aux _ [lineSegAt ⟨5, 5, 0, 0⟩ 3] 0 = _
  rw [Compound.get_pose_aux_le [] (by norm_num : (0 : ℝ) ≤ 3)]
  show some (Linear.get_pose ⟨5, 5, 0, 0⟩ 0) = _
  rw [linear_get_pose_zero]

/-- Witness for C2's amended theorem: applying its Linear and Compound
conjuncts to concretely constructed segments. -/
theorem endpoints_amended_witness :
    ((lineSegAt ⟨0, 0, 0, 0⟩ 1).get_pose (lineSegAt ⟨0, 0, 0, 0⟩ 1).length =
      some (lineSegAt ⟨0, 0, 0, 0⟩ 1).end_pose ∧
     (lineSegAt ⟨0, 0, 0, 0⟩ 1).get_pose 0 = some ⟨0, 0, 0, 0⟩) ∧
    compoundSeg55.get_pose 0 = (lineSegAt ⟨5, 5, 0, 0⟩ 3).get_pose 0 := by
  have h := endpoints_amended.1 ⟨0, 0, 0, 0⟩ 1 (lineSegAt ⟨0, 0, 0, 0⟩ 1)
    (linear_make_eq 1 (by norm_num))
  have h2 := endpoints_amended.2.2.2.2 (lineSegAt ⟨5, 5, 0, 0⟩ 3) [] compoundSeg55
    compound55_make (by norm_num : (0 : ℝ) ≤ 3)
  exact ⟨⟨h.1, h.2.2 rfl⟩, h2⟩

/-- C3: a compound's length is the sum of its children's lengths; for a query
inside the span of child `i` (strictly past the running base offset, at most
the offset plus that child's length) `get_pose` delegates to child `i`
evaluated at the query minus the base offset; a query beyond the total length
returns the compound's end pose instead of failing; and the spec's concrete
two-straight-children example gives total length `5` with `get_pose(4)` equal
to the second child's `get_pose(1)`. -/
theorem compound_length_and_delegation :
    (∀ (segs : List Segment) (c : Segment), Compound.make segs = some c →
        c.length = (segs.map Segment.length).sum) ∧
    (∀ (segs : List Segment) (c : Segment) (i : ℕ) (hi : i < segs.length) (q : ℝ),
        Compound.make segs = some c → (∀ x ∈ segs, 0 ≤ x.length) →
        Compound.length_before segs i < q → q ≤ Compound.length_before segs (i + 1) →
        c.get_pose q = (segs.get ⟨i, hi⟩).get_pose (q - Compound.length_before segs i)) ∧
    (∀ (segs : List Segment) (c : Segment) (q : ℝ),
        Compound.make segs = some c → (∀ x ∈ segs, 0 ≤ x.length) →
        c.length < q → c.get_pose q = some c.end_pose) ∧
    (∀ l1 l2 c : Segment,
        Linear.make ⟨0, 0, 0, 0⟩ 3 = some l1 → Linear.make l1.end_pose 2 = some l2 →
        Compound.make [l1, l2] = some c →
        c.length = 5 ∧ c.get_pose 4 = l2.get_pose 1) := by
  refine ⟨?_, ?_, ?_, ?_⟩
  · intro segs c h
    obtain ⟨-, hlen, -⟩ := compound_make_fields h
    exact hlen
  · intro segs c i hi q h hnn hlo hhi
    obtain ⟨hne, -, -, -, hgp⟩ := compound_make_fields h
    rw [hgp]
    exact Compound.get_pose_aux_delegate _ segs i hi q hnn hlo hhi
  · intro segs c q h hnn hq
    obtain ⟨hne, hlen, -, hend, hgp⟩ := compound_make_fields h
    rw [hgp, hend]
    exact Compound.get_pose_aux_beyond _ segs q hnn (hlen ▸ hq)
  · intro l1 l2 c h1 h2 h3
    obtain rfl := linear_make_inv h1
    obtain rfl := linear_make_inv h2
    obtain ⟨hne, hlen, -, hend, hgp⟩ := compound_make_fields h3
    constructor
    · rw [hlen]
      show (3 : ℝ) + (2 + 0) = 5
      norm_num
    · rw [hgp]
      have e1 : (lineSegAt (⟨0, 0, 0, 0⟩ : Pose) 3).length = 3 := rfl
      have e2 : (lineSegAt (lineSegAt (⟨0, 0, 0, 0⟩ : Pose) 3).end_pose 2).length = 2 := rfl
      rw [Compound.get_pose_aux_gt _ (by rw [e1]; norm_num)]
      rw [e1, show (4 : ℝ) - 3 = 1 by norm_num]
      rw [Compound.get_pose_aux_le [] (by rw [e2]; norm_num)]

/-- Witness for C3's theorem: applying its example conjunct to the concretely
constructed two-child compound. -/
theorem compound_length_and_delegation_witness :
    compoundLin32.length = 5 ∧
    compoundLin32.get_pose 4 = (lineSegAt (Linear.get_pose ⟨0, 0, 0, 0⟩ 3) 2).get_pose 1 :=
  compound_length_and_delegation.2.2.2 (lineSegAt ⟨0, 0, 0, 0⟩ 3)
    (lineSegAt (Linear.get_pose ⟨0, 0, 0, 0⟩ 3) 2) compoundLin32
    (linear_make_eq 3 (by norm_num))
    (linear_make_eq 2 (by show |(0 : ℝ)| < 1 / 20000; norm_num))
    compoundLin32_make

theorem frZero_fresnelLike : FresnelLike frZero := by
  constructor
  · intro u; simp [frZero]
  · intro u; simp [frZero]

theorem pyRound_nonpos {x : ℝ} (h : x < 1 / 2) : pyRound x ≤ 0 := by
  unfold pyRound
  rcases le_or_lt 0 x with h0 | h0
  · rw [if_pos h0]
    have : ⌊x + 1 / 2⌋ < 1 := Int.floor_lt.mpr (by push_cast; linarith)
    omega
  · rw [if_neg (not_le.mpr h0)]
    have : (0 : ℤ) ≤ ⌊-x + 1 / 2⌋ := Int.le_floor.mpr (by push_cast; linarith)
    omega

theorem pyRound_eval {x : ℝ} {n : ℤ} (h1 : 0 ≤ x) (h2 : (n : ℝ) ≤ x + 1 / 2)
    (h3 : x + 1 / 2 < n + 1) : pyRound x = n := by
  unfold pyRound
  rw [if_pos h1, Int.floor_eq_iff]
  exact ⟨h2, h3⟩

theorem mapM_isSome {f : ℕ → Option Pose} (hf : ∀ i, (f i).isSome) :
    ∀ l : List ℕ, (l.mapM f).isSome := by
  intro l
  induction l with
  | nil => rfl
  | cons a as ih =>
    rw [List.mapM_cons]
    obtain ⟨b, hb⟩ := Option.isSome_iff_exists.mp (hf a)
    obtain ⟨bs, hbs⟩ := Option.isSome_iff_exists.mp ih
    rw [hb, hbs]
    rfl

/-- C7 counterexample: with start curvature rate `7e-5` — approximately zero
well within the claimed `1e-4` tolerance — the Linear constructor nonetheless
fails, because the source's actual guard is `round(omega0, 4) == 0`, i.e.
`|omega0| < 5e-5` under Python 2 rounding. -/
theorem linear_tolerance_counterexample :
    Linear.make ⟨0, 0, 0, 7 / 100000⟩ 1 = none ∧ |(7 : ℝ) / 100000| ≤ 1 / 10000 := by
  constructor
  · unfold Linear.make
    rw [if_neg]
    rw [round4_eq_zero_iff]
    show ¬(|(7 : ℝ) / 100000| < 1 / 20000)
    rw [abs_of_nonneg (by norm_num : (0 : ℝ) ≤ 7 / 100000)]
    norm_num
  · rw [abs_of_nonneg (by norm_num : (0 : ℝ) ≤ 7 / 100000)]
    norm_num

/-- C7 (amended): the constructor guards as implemented: Linear succeeds
exactly when `|omega0| < 5e-5` (Python 2 `round(omega0, 4) == 0`), Arc exactly
when `|omega0| >= 5e-5`, Spiral fails on `w = 0` and succeeds for every
`w != 0` whenever `fresnel` is Fresnel-like, and Compound fails exactly on an
empty child sequence. -/
theorem ctor_guards_amended :
    (∀ (p : Pose) (len : ℝ), (Linear.make p len).isSome ↔ |p.om| < 1 / 20000) ∧
    (∀ (p : Pose) (len : ℝ), (Arc.make p len).isSome ↔ 1 / 20000 ≤ |p.om|) ∧
    (∀ (fr : ℂ → ℂ × ℂ) (p : Pose) (len : ℝ), Spiral.make fr p len 0 = none) ∧
    (∀ fr : ℂ → ℂ × ℂ, FresnelLike fr → ∀ (p : Pose) (len : ℝ) {w : ℝ}, w ≠ 0 →
        (Spiral.make fr p len w).isSome) ∧
    Compound.make [] = none ∧
    (∀ (x : Segment) (xs : List Segment), (Compound.make (x :: xs)).isSome) := by
  refine ⟨linear_make_isSome_iff, arc_make_isSome_iff, ?_, ?_, rfl, fun x xs => rfl⟩
  · intro fr p len
    unfold Spiral.make
    rw [if_pos rfl]
  · intro fr hfr p len w hw
    unfold Spiral.make
    rw [if_neg hw]
    obtain ⟨e, he⟩ := Option.isSome_iff_exists.mp (Spiral.get_pose_isSome fr hfr p hw len)
    rw [he]
    rfl

/-- Witness for C7's amended theorem at concrete inputs. -/
theorem ctor_guards_amended_witness :
    (Linear.make ⟨0, 0, 0, 0⟩ 1).isSome ∧
    (Arc.make ⟨0, 0, 0, 1 / 2⟩ 1).isSome ∧
    Spiral.make frZero ⟨0, 0, 0, 0⟩ 5 0 = none ∧
    (Spiral.make frZero ⟨0, 0, 0, 0⟩ 5 1).isSome ∧
    (Compound.make [lineSegAt ⟨5, 5, 0, 0⟩ 3]).isSome := by
  refine ⟨?_, ?_, ctor_guards_amended.2.2.1 frZero ⟨0, 0, 0, 0⟩ 5, ?_, ?_⟩
  · exact (ctor_guards_amended.1 ⟨0, 0, 0, 0⟩ 1).mpr (by show |(0 : ℝ)| < 1 / 20000; norm_num)
  · exact (ctor_guards_amended.2.1 ⟨0, 0, 0, 1 / 2⟩ 1).mpr
      (by show (1 : ℝ) / 20000 ≤ |(1 : ℝ) / 2|
          rw [abs_of_nonneg (by norm_num : (0 : ℝ) ≤ 1 / 2)]; norm_num)
  · exact ctor_guards_amended.2.2.2.1 frZero frZero_fresnelLike ⟨0, 0, 0, 0⟩ 5 one_ne_zero
  · exact ctor_guards_amended.2.2.2.2.2 (lineSegAt ⟨5, 5, 0, 0⟩ 3) []

/-- C10 counterexample: the claim's parenthetical says a zero-length segment
returns the empty sequence in pure-n mode; in fact `Linear((0,0,0,0), 0)
.get_poses(n=5)` still fails (under Python 2 `None < r` is true, after which
`length / None` raises), so zero length does not rescue the call. -/
theorem n_only_zero_length_counterexample :
    Linear.make ⟨0, 0, 0, 0⟩ 0 = some (lineSegAt ⟨0, 0, 0, 0⟩ 0) ∧
    (lineSegAt ⟨0, 0, 0, 0⟩ 0).get_poses (some 5) none = none := by
  refine ⟨linear_make_eq 0 (by norm_num), ?_⟩
  unfold Segment.get_poses
  dsimp only
  rw [if_neg (by norm_num : ¬(((5 : ℤ) : ℝ) = 0))]

/-- C10 (amended): pure-n mode (`resolution` omitted) never yields a pose for
any segment: `n = 0` gives the empty sequence, and every `n != 0` fails
before the first sample — including for zero-length segments — because the
re-check compares and then divides by the absent resolution. -/
theorem n_only_mode_unusable :
    ∀ (seg : Segment) (k : ℤ),
      (k = 0 → seg.get_poses (some k) none = some []) ∧
      (k ≠ 0 → seg.get_poses (some k) none = none) := by
  intro seg k
  constructor
  · rintro rfl
    unfold Segment.get_poses
    dsimp only
    rw [if_pos (by norm_num)]
  · intro hk
    unfold Segment.get_poses
    dsimp only
    rw [if_neg (by simpa using hk)]

/-- Witness for C10's amended theorem at concrete inputs. -/
theorem n_only_mode_unusable_witness :
    (lineSegAt ⟨0, 0, 0, 0⟩ 5).get_poses (some 0) none = some [] ∧
    (lineSegAt ⟨0, 0, 0, 0⟩ 5).get_poses (some 3) none = none :=
  ⟨(n_only_mode_unusable (lineSegAt ⟨0, 0, 0, 0⟩ 5) 0).1 rfl,
   (n_only_mode_unusable (lineSegAt ⟨0, 0, 0, 0⟩ 5) 3).2 (by norm_num)⟩

/-- C8 counterexample: the claim says `get_poses` fails when both `n` and
`resolution` are supplied, but `Linear((0,0,0,0), 5).get_poses(n=2,
resolution=3)` succeeds — the source only asserts that at least one argument
is present. -/
theorem both_args_accepted_counterexample :
    Linear.make ⟨0, 0, 0, 0⟩ 5 = some (lineSegAt ⟨0, 0, 0, 0⟩ 5) ∧
    ((lineSegAt ⟨0, 0, 0, 0⟩ 5).get_poses (some 2) (some 3)).isSome := by
  refine ⟨linear_make_eq 5 (by norm_num), ?_⟩
  unfold Segment.get_poses
  dsimp only
  have e : (lineSegAt (⟨0, 0, 0, 0⟩ : Pose) 5).length = 5 := rfl
  rw [e, if_neg (by norm_num : ¬(((2 : ℤ) : ℝ) = 0)),
    if_neg (show ¬((3 : ℝ) < 5 / ((2 : ℤ) : ℝ)) by push_cast; norm_num)]
  apply mapM_isSome
  intro i
  rfl

/-- C8 (amended): the failures of `get_poses` as implemented: it fails when
neither argument is supplied, when `resolution` is omitted and `n != 0`, and
when `resolution = 0` is supplied alone; but a negative resolution alone
yields the empty sequence rather than failing, a positive resolution alone
succeeds, and supplying both arguments succeeds whenever the resolution is at
least `length / n` (with `n > 0`). -/
theorem get_poses_failures_amended :
    (∀ seg : Segment, seg.get_poses none none = none) ∧
    (∀ (seg : Segment) (k : ℤ), k ≠ 0 → seg.get_poses (some k) none = none) ∧
    (∀ seg : Segment, seg.get_poses none (some 0) = none) ∧
    (∀ (seg : Segment) (res : ℝ), res < 0 → 0 < seg.length →
        seg.get_poses none (some res) = some []) ∧
    (∀ (seg : Segment) (res : ℝ), 0 < res → 0 < seg.length →
        (∀ q, (seg.get_pose q).isSome) → (seg.get_poses none (some res)).isSome) ∧
    (∀ (seg : Segment) (k : ℤ) (res : ℝ), 0 < (k : ℝ) → seg.length / (k : ℝ) ≤ res →
        (∀ q, (seg.get_pose q).isSome) → (seg.get_poses (some k) (some res)).isSome) := by
  refine ⟨fun seg => rfl, ?_, ?_, ?_, ?_, ?_⟩
  · intro seg k hk
    unfold Segment.get_poses
    dsimp only
    rw [if_neg (by simpa using hk)]
  · intro seg
    unfold Segment.get_poses
    dsimp only
    rw [if_pos rfl]
  · intro seg res hres hlen
    have hL : seg.length ≠ 0 := ne_of_gt hlen
    have hn0 : seg.length / res < 0 := div_neg_of_pos_of_neg hlen hres
    have hr : seg.length / (seg.length / res) = res := by
      rw [div_div_eq_mul_div, mul_comm, mul_div_assoc, div_self hL, mul_one]
    unfold Segment.get_poses
    dsimp only
    rw [if_neg hres.ne]
    dsimp only
    rw [if_neg hn0.ne, hr, if_neg (lt_irrefl res),
      Int.toNat_eq_zero.mpr (pyRound_nonpos (by linarith))]
    rfl
  · intro seg res hres hlen hg
    have hL : seg.length ≠ 0 := ne_of_gt hlen
    have hn0 : 0 < seg.length / res := div_pos hlen hres
    have hr : seg.length / (seg.length / res) = res := by
      rw [div_div_eq_mul_div, mul_comm, mul_div_assoc, div_self hL, mul_one]
    unfold Segment.get_poses
    dsimp only
    rw [if_neg hres.ne']
    dsimp only
    rw [if_neg hn0.ne', hr, if_neg (lt_irrefl res)]
    exact mapM_isSome (fun i => hg _) _
  · intro seg k res hk hres hg
    unfold Segment.get_poses
    dsimp only
    rw [if_neg hk.ne', if_neg (not_lt.mpr hres)]
    exact mapM_isSome (fun i => hg _) _

/-- Witness for C8's amended theorem at concrete inputs. -/
theorem get_poses_failures_amended_witness :
    (lineSegAt ⟨0, 0, 0, 0⟩ 5).get_poses none none = none ∧
    (lineSegAt ⟨0, 0, 0, 0⟩ 5).get_poses (some 3) none = none ∧
    (lineSegAt ⟨0, 0, 0, 0⟩ 5).get_poses none (some 0) = none ∧
    (lineSegAt ⟨0, 0, 0, 0⟩ 5).get_poses none (some (-1)) = some [] ∧
    ((lineSegAt ⟨0, 0, 0, 0⟩ 5).get_poses none (some 2)).isSome ∧
    ((lineSegAt ⟨0, 0, 0, 0⟩ 5).get_poses (some 5) (some 1)).isSome := by
  have hlen : (0 : ℝ) < (lineSegAt (⟨0, 0, 0, 0⟩ : Pose) 5).length := by
    show (0 : ℝ) < 5; norm_num
  refine ⟨get_poses_failures_amended.1 _,
    get_poses_failures_amended.2.1 _ 3 (by norm_num),
    get_poses_failures_amended.2.2.1 _,
    get_poses_failures_amended.2.2.2.1 _ (-1) (by norm_num) hlen,
    get_poses_failures_amended.2.2.2.2.1 _ 2 (by norm_num) hlen (fun q => rfl),
    get_poses_failures_amended.2.2.2.2.2 _ 5 1 (by norm_num) ?_ (fun q => rfl)⟩
  show (lineSegAt (⟨0, 0, 0, 0⟩ : Pose) 5).length / ((5 : ℤ) : ℝ) ≤ 1
  show (5 : ℝ) / ((5 : ℤ) : ℝ) ≤ 1
  push_cast
  norm_num

/-- C4: the claim that `get_poses(resolution=r)` never yields the end pose is
violated by the code: Python 2's `int(round(n + 0.5))` equals `floor(n) + 1`,
so whenever `length / r` is a whole number the last sample lands exactly at
`length`. For `Linear((0,0,0,0), 2)` with `r = 1` the code yields the poses
at arc lengths 0, 1 and 2, and the pose at 2 is exactly the cached end pose
— contradicting the source's own comment "explicitly don't yield the end". -/
theorem get_poses_yields_end_pose :
    Linear.make ⟨0, 0, 0, 0⟩ 2 = some (lineSegAt ⟨0, 0, 0, 0⟩ 2) ∧
    (lineSegAt ⟨0, 0, 0, 0⟩ 2).get_poses none (some 1) =
      some [Linear.get_pose ⟨0, 0, 0, 0⟩ 0, Linear.get_pose ⟨0, 0, 0, 0⟩ 1,
            Linear.get_pose ⟨0, 0, 0, 0⟩ 2] ∧
    Linear.get_pose ⟨0, 0, 0, 0⟩ 2 = (lineSegAt ⟨0, 0, 0, 0⟩ 2).end_pose := by
  refine ⟨linear_make_eq 2 (by norm_num), ?_, rfl⟩
  unfold Segment.get_poses
  dsimp only
  have e : (lineSegAt (⟨0, 0, 0, 0⟩ : Pose) 2).length = 2 := rfl
  rw [e, if_neg (by norm_num : ¬((1 : ℝ) = 0))]
  dsimp only
  rw [if_neg (by norm_num : ¬((2 : ℝ) / 1 = 0)),
    if_neg (show ¬((1 : ℝ) < 2 / (2 / 1)) by norm_num),
    show pyRound ((2 : ℝ) / 1 + 1 / 2) = 3 from
      pyRound_eval (by norm_num) (by push_cast; norm_num) (by push_cast; norm_num),
    show ((3 : ℤ).toNat) = 3 from rfl,
    show List.range 3 = [0, 1, 2] from rfl]
  simp only [List.mapM_cons, List.mapM_nil, lineSegAt]
  norm_num

end
